import Mathlib

/-!
Verification development for the pyxbee packet protocol layer.

The definitions below are a shallow embedding of `pyxbee/packet.py` and
`pyxbee/base.py`.  Python dictionaries (which preserve insertion order)
are modelled as association lists; the wire separator split/join of
`str.split(';')` and `';'.join` is modelled explicitly on character
lists; `str.lower()` is modelled for the ASCII domain of the protocol.
The class attribute `_PACKETS` (the protocol registry, loaded from
`const.PROTOCOL` or replaced via the `protocol` classmethod) is passed
as an explicit parameter, as is the keyed hash `hashlib.blake2b`
(abstracted as a function from key and message to hex digest).
-/

namespace Pyxbee

/-- A Python value occurring in packet content: wire tokens are strings,
and the codec coerces the literals `true`/`false` to booleans. -/
inductive Val where
  | vStr (s : String)
  | vBool (b : Bool)
deriving DecidableEq, Repr

/-- A Python `dict` with `str` keys, as an insertion-ordered association
list (Python dicts preserve insertion order and have unique keys). -/
abbrev ContentMap := List (String × Val)

/-- A schema: the ordered field/zero-value pairs of one packet type. -/
abbrev Schema := ContentMap

/-- The protocol registry `_PACKETS`: type tag to schema. -/
abbrev Protocol := List (String × Schema)

/-- Association-list lookup, modelling `d[k]` / `d.get(k)`. -/
def dictLookup : ContentMap → String → Option Val
  | [], _ => none
  | (k, v) :: d, key => if k = key then some v else dictLookup d key

/-- The keys of a dict in insertion order, modelling `d.keys()`. -/
def dictKeys (d : ContentMap) : List String := d.map Prod.fst

/-- The values of a dict in insertion order, modelling `d.values()`. -/
def dictValues (d : ContentMap) : List Val := d.map Prod.snd

/-- Key membership test, modelling `k in d`. -/
def dictHasKey (d : ContentMap) (key : String) : Bool := d.any (·.1 = key)

/-- `d[key] = v`: replace the value in place when the key is present
(keeping its position), append the pair otherwise. -/
def dictSet (d : ContentMap) (key : String) (v : Val) : ContentMap :=
  if dictHasKey d key then
    d.map (fun e => if e.1 = key then (e.1, v) else e)
  else
    d ++ [(key, v)]

/-- `d.update(upd)`: fold `dictSet` over the update's entries. -/
def dictUpdate (d : ContentMap) (upd : ContentMap) : ContentMap :=
  upd.foldl (fun acc e => dictSet acc e.1 e.2) d

/-- Registry lookup `_PACKETS[t]` / membership `t in _PACKETS.keys()`. -/
def protoLookup : Protocol → String → Option Schema
  | [], _ => none
  | (k, sch) :: p, key => if k = key then some sch else protoLookup p key

/-- `str(v)` on a content value: strings unchanged, Python renders the
booleans as `True` / `False`. -/
def pyStr : Val → String
  | .vStr s => s
  | .vBool true => "True"
  | .vBool false => "False"

/-- ASCII lower-casing of one character, modelling `str.lower()` on the
protocol's ASCII domain. -/
def lowerChar (c : Char) : Char :=
  if 'A' ≤ c ∧ c ≤ 'Z' then Char.ofNat (c.toNat + 32) else c

/-- `s.lower()` for ASCII strings. -/
def pyLower (s : String) : String := ⟨s.data.map lowerChar⟩

/-- Boolean coercion of one wire token, from `_dictify`:
`json.loads(item.lower()) if item.lower() in ('true', 'false') else item`. -/
def coerceToken (t : String) : Val :=
  if pyLower t = "true" then .vBool true
  else if pyLower t = "false" then .vBool false
  else .vStr t

/-- `str.split(sep)` on a character list (Python semantics: the empty
string splits to one empty piece). -/
def splitCh (sep : Char) : List Char → List (List Char)
  | [] => [[]]
  | c :: cs =>
    if c = sep then [] :: splitCh sep cs
    else
      match splitCh sep cs with
      | [] => [[c]]
      | t :: ts => (c :: t) :: ts

/-- `s.split(';')`. -/
def splitSemi (s : String) : List String := (splitCh ';' s.data).map String.mk

/-- `sep.join` on character lists. -/
def joinCh (sep : Char) : List (List Char) → List Char
  | [] => []
  | [x] => x
  | x :: xs => x ++ sep :: joinCh sep xs

/-- `';'.join(ts)`. -/
def joinSemi (ts : List String) : String := ⟨joinCh ';' (ts.map String.data)⟩

/-- JSON escaping of one character (`json.dumps` escapes the quote and
the backslash; the protocol's tokens are plain ASCII). -/
def escapeChar (c : Char) : List Char :=
  if c = '"' ∨ c = '\\' then ['\\', c] else [c]

/-- JSON escaping of a character list. -/
def escapeL : List Char → List Char
  | [] => []
  | c :: cs => escapeChar c ++ escapeL cs

/-- The JSON rendering of one value: strings quoted and escaped,
booleans as the literals `true` / `false`. -/
def renderValL : Val → List Char
  | .vStr s => '"' :: (escapeL s.data ++ ['"'])
  | .vBool true => ['t', 'r', 'u', 'e']
  | .vBool false => ['f', 'a', 'l', 's', 'e']

/-- One `"key": value` member of the JSON object. -/
def renderEntryL (k : String) (v : Val) : List Char :=
  '"' :: (escapeL k.data ++ ['"', ':', ' '] ++ renderValL v)

/-- The members after the first, each preceded by `", "`. -/
def renderRestL : ContentMap → List Char
  | [] => []
  | (k, v) :: rest => ',' :: ' ' :: (renderEntryL k v ++ renderRestL rest)

/-- All members of the JSON object, separated by `", "`. -/
def renderEntriesL : ContentMap → List Char
  | [] => []
  | (k, v) :: rest => renderEntryL k v ++ renderRestL rest

/-- `json.dumps(d)` with the default separators. -/
def jsonDumps (d : ContentMap) : String :=
  ⟨'{' :: (renderEntriesL d ++ ['}'])⟩

/-- The errors the decode path can raise: the named protocol exceptions
`InvalidTypeException` and `InvalidFieldsException`, plus the raw Python
`KeyError` and `IndexError` escaping from unguarded subscripts. -/
inductive DecodeErr where
  | invalidType
  | invalidFields
  | keyError
  | indexError
deriving DecidableEq, Repr

/-- The protected packet types `('3', '4', '5', '6', '7')`; membership
uses Python equality, so a boolean never matches a string tag. -/
def isProtected : Val → Bool
  | .vStr s => s = "3" ∨ s = "4" ∨ s = "5" ∨ s = "6" ∨ s = "7"
  | .vBool _ => false

/-- Python truthiness of the optional secret key: `None` and the empty
string are falsy. -/
def truthy : Option String → Bool
  | none => false
  | some s => !(s = "")

/-- `_check_data` on a dict input: `data['type']` (a raw `KeyError` when
absent), the type check, then the arity check against the schema. -/
def checkDataDict (P : Protocol) (data : ContentMap) : Except DecodeErr Unit :=
  match dictLookup data "type" with
  | none => .error .keyError
  | some tipo =>
    match tipo with
    | .vBool _ => .error .invalidType
    | .vStr t =>
      match protoLookup P t with
      | none => .error .invalidType
      | some sch =>
        if data.length = sch.length then .ok () else .error .invalidFields

/-- `_check_data` on a sequence input: `content[1]` (a raw `IndexError`
when too short), the type check, then the arity check. -/
def checkDataSeq (P : Protocol) (content : List Val) : Except DecodeErr Unit :=
  match content.get? 1 with
  | none => .error .indexError
  | some tipo =>
    match tipo with
    | .vBool _ => .error .invalidType
    | .vStr t =>
      match protoLookup P t with
      | none => .error .invalidType
      | some sch =>
        if content.length = sch.length then .ok () else .error .invalidFields

/-- `_dictify` after any coercion: `res = dict(_PACKETS[str(data[1])])`
(a raw `KeyError` on an unknown tag), then each schema field in order is
assigned the data value at the same position (`content.pop()` from the
reversed copy); popping beyond the data raises `IndexError`. -/
def dictify (P : Protocol) (data : List Val) : Except DecodeErr ContentMap :=
  match data.get? 1 with
  | none => .error .indexError
  | some d1 =>
    match protoLookup P (pyStr d1) with
    | none => .error .keyError
    | some sch =>
      if sch.length ≤ data.length then
        .ok (List.zipWith (fun e v => (e.1, v)) sch data)
      else
        .error .indexError

/-- `_add_digest`: `dic['digest'] = blake2b(key=secret_key)` over
`json.dumps(dic)`, with `hash` abstracting the keyed hex digest. -/
def addDigest (k : String) (hash : String → String → String)
    (dic : ContentMap) : ContentMap :=
  dictSet dic "digest" (.vStr (hash k (jsonDumps dic)))

/-- The tail of `_decode`: `if dic['type'] in self.protected_type and
self.secret_key: self._add_digest(dic)` — the subscript raises a raw
`KeyError` when the built dict has no `type` field. -/
def finishDecode (key : Option String) (hash : String → String → String)
    (dic : ContentMap) : Except DecodeErr ContentMap :=
  match dictLookup dic "type" with
  | none => .error .keyError
  | some tv =>
    match key with
    | none => .ok dic
    | some k =>
      if isProtected tv ∧ !(k = "") then .ok (addDigest k hash dic)
      else .ok dic

/-- `_decode` on a dict, before the digest step: check, then
`dic = dict(_PACKETS[str(data['type'])]); dic.update(data)`. -/
def decodePreDict (P : Protocol) (data : ContentMap) :
    Except DecodeErr ContentMap :=
  match checkDataDict P data with
  | .error e => .error e
  | .ok _ =>
    match dictLookup data "type" with
    | none => .error .keyError
    | some tipo =>
      match protoLookup P (pyStr tipo) with
      | none => .error .keyError
      | some sch => .ok (dictUpdate sch data)

/-- `_decode` on a list/tuple, before the digest step. -/
def decodePreSeq (P : Protocol) (data : List Val) :
    Except DecodeErr ContentMap :=
  match checkDataSeq P data with
  | .error e => .error e
  | .ok _ => dictify P data

/-- `_decode` on a wire string, before the digest step: `_check_data`
splits the raw string, `_dictify` re-splits it with boolean coercion. -/
def decodePreStr (P : Protocol) (s : String) : Except DecodeErr ContentMap :=
  match checkDataSeq P ((splitSemi s).map Val.vStr) with
  | .error e => .error e
  | .ok _ => dictify P ((splitSemi s).map coerceToken)

/-- Full `_decode` of a dict input (`Packet(content_map)`). -/
def decodeDict (P : Protocol) (key : Option String)
    (hash : String → String → String) (data : ContentMap) :
    Except DecodeErr ContentMap :=
  match decodePreDict P data with
  | .error e => .error e
  | .ok dic => finishDecode key hash dic

/-- Full `_decode` of a wire-string input (`Packet(raw)`). -/
def decodeStr (P : Protocol) (key : Option String)
    (hash : String → String → String) (s : String) :
    Except DecodeErr ContentMap :=
  match decodePreStr P s with
  | .error e => .error e
  | .ok dic => finishDecode key hash dic

/-- `Packet.encode`: `';'.join(map(str, self.content))`. -/
def encode (d : ContentMap) : String := joinSemi ((dictValues d).map pyStr)

/-- `Packet.dest`: `self.content[0] if len(self) > 0 else None`. -/
def pktDest (d : ContentMap) : Option Val := (dictValues d).get? 0

/-- `Packet.tipo`: `self.content[1] if len(self) > 0 else None`
(for the packets in scope the content has at least two fields). -/
def pktTipo (d : ContentMap) : Option Val :=
  if d.length = 0 then none else (dictValues d).get? 1

/-- Generic association-list lookup, for the memoization dict of
`Taurus` whose keys are `packet.tipo` values. -/
def assocGet {κ α : Type} [DecidableEq κ] : List (κ × α) → κ → Option α
  | [], _ => none
  | (k, v) :: l, key => if k = key then some v else assocGet l key

/-- Generic `d[key] = v` with Python dict semantics: replace in place
when present, append otherwise. -/
def assocSet {κ α : Type} [DecidableEq κ] (l : List (κ × α)) (key : κ)
    (v : α) : List (κ × α) :=
  if l.any (·.1 = key) then
    l.map (fun e => if e.1 = key then (e.1, v) else e)
  else
    l ++ [(key, v)]

/-- `OrderedSet.append` on strings (the `Taurus` history stores the
`jsonify` renderings): value equality, a present value is not added. -/
def osAppend (l : List String) (x : String) : List String :=
  if x ∈ l then l else l ++ [x]

/-- The Hub-side device actor `Taurus`: the per-type memoization dict
and the history `OrderedSet`. -/
structure TaurusSt where
  memoize : List (Option Val × ContentMap)
  history : List String
deriving DecidableEq, Repr

/-- `Taurus.receive`: `self._memoize.update({packet.tipo: packet})` —
only the memoization dict is touched. -/
def taurusReceive (t : TaurusSt) (p : ContentMap) : TaurusSt :=
  { t with memoize := assocSet t.memoize (pktTipo p) p }

/-- The `Taurus.data` property: read the memoized DATA packet; when one
is present, append its `jsonify` rendering to the history and return
it.  The history mutation lives in this accessor, not in `receive`. -/
def taurusData (t : TaurusSt) : TaurusSt × Option String :=
  match assocGet t.memoize (some (.vStr "0")) with
  | none => (t, none)
  | some p =>
    ({ t with history := osAppend t.history (jsonDumps p) }, some (jsonDumps p))

/-- The errors of the dispatch/registration layer of `base.py`:
`PacketInstanceException`, `InvalidInstanceException`,
`InvalidCodeException`, and the raw `AttributeError` that
`None.receive(...)` raises in `Server.manage_packet`. -/
inductive BaseErr where
  | packetInstance
  | invalidInstance
  | invalidCode
  | attributeError
deriving DecidableEq, Repr

/-- The `Server.listener` setter: reject a code already present in the
routing table with `InvalidCodeException`, otherwise
`self._listener.update({l.code: l})`. -/
def listenerSet (ls : List (String × TaurusSt)) (code : String)
    (t : TaurusSt) : Except BaseErr (List (String × TaurusSt)) :=
  if ls.any (·.1 = code) then .error .invalidCode
  else .ok (ls ++ [(code, t)])

/-- `self.listener.get(packet.dest)`: the routing-table lookup keyed by
the packet's destination value; `None` and boolean destinations match
no string code. -/
def findListener (ls : List (String × TaurusSt)) (dest : Option Val) :
    Option String :=
  match dest with
  | some (.vStr s) => if ls.any (·.1 = s) then some s else none
  | _ => none

/-- `Server.manage_packet` on a decoded packet: look the destination up
in the routing table; a missing listener leaves `dest = None` and the
following `dest.receive(packet)` raises `AttributeError`; otherwise the
target actor receives the packet and, when a web observer is attached
and the type is DATA, the encoded wire form is pushed to it. -/
def managePacket (ls : List (String × TaurusSt)) (web : Bool)
    (p : ContentMap) :
    Except BaseErr (List (String × TaurusSt) × List String) :=
  match findListener ls (pktDest p) with
  | none => .error .attributeError
  | some c =>
    let ls' := ls.map (fun e => if e.1 = c then (e.1, taurusReceive e.2 p) else e)
    let w := if web ∧ pktTipo p = some (.vStr "0") then [encode p] else []
    .ok (ls', w)

/-- A `Packet` object as stored in the Leaf-side log: `Packet` defines
no `__eq__`/`__hash__`, so container membership uses object identity,
modelled by the object id. -/
structure PacketObj where
  oid : Nat
  content : ContentMap
deriving DecidableEq, Repr

/-- `Bike.receive`: `self._memoize.append(packet)` on an `OrderedSet`
of `Packet` objects — membership is by object identity. -/
def bikeReceive (log : List PacketObj) (p : PacketObj) : List PacketObj :=
  if log.any (fun q => q.oid = p.oid) then log else log ++ [p]

/-- The state relevant to the shared secret key: the class attribute
`_SECRET_KEY` and the per-instance attributes that the `secret_key`
setter creates (`self._SECRET_KEY = key` writes the instance dict). -/
structure KeyWorld where
  classKey : Option String
  instKeys : List (Nat × String)
deriving DecidableEq, Repr

/-- Python attribute lookup for `self._SECRET_KEY`: the instance dict
first, then the class attribute. -/
def lookupSecretKey (w : KeyWorld) (oid : Nat) : Option String :=
  match assocGet w.instKeys oid with
  | some s => some s
  | none => w.classKey

/-- The `secret_key` setter on one instance (with a string argument,
which passes the `isinstance(key, str)` guard): it writes the instance
attribute only. -/
def setSecretKey (w : KeyWorld) (oid : Nat) (k : String) : KeyWorld :=
  { w with instKeys := assocSet w.instKeys oid k }

/-- Constructing a `Packet` from a dict: `__init__` runs `_decode`
before any instance attribute exists, so the digest step reads the
class-level key. -/
def mkPacketDict (w : KeyWorld) (P : Protocol)
    (hash : String → String → String) (data : ContentMap) :
    Except DecodeErr ContentMap :=
  decodeDict P w.classKey hash data

/-- A concrete four-field protocol with the single tag `0`, as in the
spec's field-order example. -/
def P4c : Protocol :=
  [("0", [("dest", .vStr ""), ("type", .vStr "0"), ("a", .vStr ""), ("b", .vStr "")])]

/-- A concrete three-field protocol whose single tag `3` is a protected
type. -/
def P3c : Protocol :=
  [("3", [("dest", .vStr ""), ("type", .vStr "3"), ("a", .vStr "")])]

/-- A concrete keyed hash used to instantiate the abstracted `blake2b`:
it returns the message itself, so it is injective in the message. -/
def hashId : String → String → String := fun _ m => m

/-- The pre-digest content of the record `7;3;x` under `P3c`. -/
def d3pre : ContentMap := [("dest", .vStr "7"), ("type", .vStr "3"), ("a", .vStr "x")]

section AssocLemmas

variable {κ α : Type} [DecidableEq κ]

theorem assocGet_set_self (l : List (κ × α)) (key : κ) (v : α) :
    assocGet (assocSet l key v) key = some v := by
  induction l with
  | nil => simp [assocSet, assocGet]
  | cons e l ih =>
    obtain ⟨k1, v1⟩ := e
    by_cases he : k1 = key
    · simp [assocSet, assocGet, he]
    · by_cases ha : l.any (·.1 = key)
      · simp [assocSet, assocGet, he, ha] at ih ⊢
        exact ih
      · simp [assocSet, assocGet, he, ha] at ih ⊢
        exact ih

theorem assocGet_mapReplace_ne (l : List (κ × α)) (key key' : κ) (v : α)
    (hne : key' ≠ key) :
    assocGet (l.map (fun e => if e.1 = key then (e.1, v) else e)) key' =
      assocGet l key' := by
  induction l with
  | nil => rfl
  | cons e l ih =>
    obtain ⟨k1, v1⟩ := e
    by_cases hk : k1 = key
    · subst hk
      have h1 : (if (k1, v1).1 = k1 then ((k1, v1).1, v) else (k1, v1)) = (k1, v) :=
        if_pos rfl
      rw [List.map_cons, h1]
      simp only [assocGet]
      rw [if_neg (Ne.symm hne), if_neg (Ne.symm hne)]
      exact ih
    · have h1 : (if (k1, v1).1 = key then ((k1, v1).1, v) else (k1, v1)) = (k1, v1) :=
        if_neg hk
      rw [List.map_cons, h1]
      simp only [assocGet]
      by_cases hk' : k1 = key'
      · rw [if_pos hk', if_pos hk']
      · rw [if_neg hk', if_neg hk']
        exact ih

theorem assocGet_append_single_ne (l : List (κ × α)) (key key' : κ) (v : α)
    (hne : key' ≠ key) :
    assocGet (l ++ [(key, v)]) key' = assocGet l key' := by
  induction l with
  | nil => simp [assocGet, Ne.symm hne]
  | cons e l ih =>
    obtain ⟨k1, v1⟩ := e
    by_cases hk : k1 = key'
    · simp [assocGet, hk]
    · simp [assocGet, hk, ih]

theorem assocGet_append_single_self (l : List (κ × α)) (key : κ) (v : α)
    (h : l.any (·.1 = key) = false) :
    assocGet (l ++ [(key, v)]) key = some v := by
  induction l with
  | nil => simp [assocGet]
  | cons e l ih =>
    obtain ⟨k1, v1⟩ := e
    simp only [List.any_cons, Bool.or_eq_false_iff] at h
    have hk : ¬ (k1 = key) := by simpa using h.1
    simp [assocGet, hk, ih h.2]

theorem assocGet_set_ne (l : List (κ × α)) (key key' : κ) (v : α)
    (hne : key' ≠ key) :
    assocGet (assocSet l key v) key' = assocGet l key' := by
  unfold assocSet
  by_cases ha : l.any (·.1 = key)
  · simp [ha, assocGet_mapReplace_ne l key key' v hne]
  · simp [ha, assocGet_append_single_ne l key key' v hne]

end AssocLemmas

section DictLemmas

theorem dictLookup_eq_none (d : ContentMap) (k : String) (h : k ∉ dictKeys d) :
    dictLookup d k = none := by
  induction d with
  | nil => rfl
  | cons e d ih =>
    obtain ⟨k1, v1⟩ := e
    simp only [dictKeys, List.map_cons, List.mem_cons] at h
    push_neg at h
    have h1 : ¬ (k1 = k) := fun hh => h.1 hh.symm
    simp only [dictLookup, if_neg h1]
    exact ih h.2

theorem mem_dictKeys_of_lookup (d : ContentMap) (k : String) (v : Val)
    (h : dictLookup d k = some v) : k ∈ dictKeys d := by
  induction d with
  | nil => simp [dictLookup] at h
  | cons e d ih =>
    obtain ⟨k1, v1⟩ := e
    by_cases hk : k1 = k
    · simp [dictKeys, hk]
    · simp only [dictLookup, if_neg hk] at h
      simp only [dictKeys, List.map_cons, List.mem_cons]
      exact Or.inr (ih h)

theorem dictLookup_isSome_of_mem (d : ContentMap) (k : String)
    (h : k ∈ dictKeys d) : ∃ v, dictLookup d k = some v := by
  induction d with
  | nil => simp [dictKeys] at h
  | cons e d ih =>
    obtain ⟨k1, v1⟩ := e
    by_cases hk : k1 = k
    · exact ⟨v1, by simp [dictLookup, hk]⟩
    · have hmem : k ∈ dictKeys d := by
        simp only [dictKeys, List.map_cons, List.mem_cons] at h
        rcases h with h | h
        · exact absurd h.symm hk
        · exact h
      obtain ⟨v, hv⟩ := ih hmem
      exact ⟨v, by simp [dictLookup, hk, hv]⟩

theorem dictHasKey_iff_mem (d : ContentMap) (k : String) :
    dictHasKey d k = true ↔ k ∈ dictKeys d := by
  induction d with
  | nil => simp [dictHasKey, dictKeys]
  | cons e d ih =>
    obtain ⟨k1, v1⟩ := e
    simp only [dictHasKey, List.any_cons, Bool.or_eq_true, dictKeys,
      List.map_cons, List.mem_cons] at ih ⊢
    constructor
    · rintro (h | h)
      · exact Or.inl (of_decide_eq_true h).symm
      · exact Or.inr (ih.mp h)
    · rintro (h | h)
      · exact Or.inl (decide_eq_true h.symm)
      · exact Or.inr (ih.mpr h)

theorem dictKeys_set_of_has (d : ContentMap) (k : String) (v : Val)
    (h : dictHasKey d k = true) : dictKeys (dictSet d k v) = dictKeys d := by
  simp only [dictSet, if_pos h, dictKeys, List.map_map]
  apply List.map_congr_left
  intro e _
  by_cases hek : e.1 = k <;> simp [hek, Function.comp]

/-- `dic = dict(schema); dic.update(data)` with uniquely-keyed `data`
whose keys all occur in the schema: the result keeps the schema's field
order and overlays the supplied values onto the zero-values. -/
theorem dictUpdate_overlay (data : ContentMap) (sch : ContentMap)
    (hsub : ∀ k0 ∈ dictKeys data, k0 ∈ dictKeys sch)
    (hnd : (dictKeys data).Nodup) :
    dictUpdate sch data =
      sch.map (fun e => (e.1, (dictLookup data e.1).getD e.2)) := by
  induction data generalizing sch with
  | nil => simp [dictUpdate, dictLookup]
  | cons e0 data ih =>
    obtain ⟨k0, v0⟩ := e0
    simp only [dictKeys, List.map_cons, List.nodup_cons] at hnd
    have hk0 : k0 ∈ dictKeys sch := hsub k0 (by simp [dictKeys])
    have hhas : dictHasKey sch k0 = true := (dictHasKey_iff_mem sch k0).mpr hk0
    have hk0nd : k0 ∉ dictKeys data := hnd.1
    have hsub' : ∀ k1 ∈ dictKeys data, k1 ∈ dictKeys (dictSet sch k0 v0) := by
      intro k1 hk1
      rw [dictKeys_set_of_has sch k0 v0 hhas]
      refine hsub k1 ?_
      simp only [dictKeys, List.map_cons, List.mem_cons]
      exact Or.inr hk1
    have step : dictUpdate sch ((k0, v0) :: data) =
        dictUpdate (dictSet sch k0 v0) data := rfl
    rw [step, ih (dictSet sch k0 v0) hsub' hnd.2]
    simp only [dictSet, if_pos hhas, List.map_map]
    apply List.map_congr_left
    intro e _
    by_cases hek : e.1 = k0
    · simp [Function.comp, hek, dictLookup,
        dictLookup_eq_none data k0 hk0nd]
    · have hne : ¬ (k0 = e.1) := fun hh => hek hh.symm
      simp [Function.comp, hek, dictLookup, hne]

theorem dictKeys_map_fst_preserving (d : ContentMap)
    (g : String × Val → Val) :
    dictKeys (d.map (fun e => (e.1, g e))) = dictKeys d := by
  simp [dictKeys, List.map_map, Function.comp]

end DictLemmas

section JsonInjective

/-- A parser for one escaped, quote-terminated segment: it undoes
`escapeL` up to the closing unescaped quote and returns the remainder.
Used only to prove that the JSON rendering is injective. -/
def parseEsc : List Char → Option (List Char × List Char)
  | [] => none
  | c :: rest =>
    if c = '\\' then
      match rest with
      | [] => none
      | c2 :: rest2 =>
        match parseEsc rest2 with
        | none => none
        | some p => some (c2 :: p.1, p.2)
    else if c = '"' then some ([], rest)
    else
      match parseEsc rest with
      | none => none
      | some p => some (c :: p.1, p.2)

theorem parseEsc_escape (s : List Char) :
    ∀ t, parseEsc (escapeL s ++ '"' :: t) = some (s, t) := by
  induction s with
  | nil =>
    intro t
    show parseEsc ('"' :: t) = some ([], t)
    unfold parseEsc
    rw [if_neg (by decide), if_pos rfl]
  | cons c cs ih =>
    intro t
    by_cases hc : c = '"' ∨ c = '\\'
    · have he : escapeL (c :: cs) = '\\' :: c :: escapeL cs := by
        simp [escapeL, escapeChar, hc]
      rw [he]
      show parseEsc ('\\' :: c :: (escapeL cs ++ '"' :: t)) = some (c :: cs, t)
      unfold parseEsc
      rw [if_pos rfl]
      show (match parseEsc (escapeL cs ++ '"' :: t) with
        | none => none
        | some p => some (c :: p.1, p.2)) = some (c :: cs, t)
      rw [ih t]
    · have he : escapeL (c :: cs) = c :: escapeL cs := by
        simp [escapeL, escapeChar, hc]
      push_neg at hc
      rw [he]
      show parseEsc (c :: (escapeL cs ++ '"' :: t)) = some (c :: cs, t)
      unfold parseEsc
      rw [if_neg hc.2, if_neg hc.1, ih t]

theorem escapeL_quote_inj (s1 s2 t1 t2 : List Char)
    (h : escapeL s1 ++ '"' :: t1 = escapeL s2 ++ '"' :: t2) :
    s1 = s2 ∧ t1 = t2 := by
  have h1 := parseEsc_escape s1 t1
  rw [h, parseEsc_escape s2 t2] at h1
  simp at h1
  exact ⟨h1.1.symm, h1.2.symm⟩

theorem renderValL_append_inj (v1 v2 : Val) (t1 t2 : List Char)
    (h : renderValL v1 ++ t1 = renderValL v2 ++ t2) : v1 = v2 ∧ t1 = t2 := by
  cases v1 with
  | vStr s1 =>
    cases v2 with
    | vStr s2 =>
      simp only [renderValL, List.cons_append, List.append_assoc,
        List.singleton_append, List.cons.injEq] at h
      obtain ⟨s12, t12⟩ := escapeL_quote_inj s1.data s2.data t1 t2 h.2
      exact ⟨congrArg (fun l => Val.vStr (String.mk l)) s12, t12⟩
    | vBool b =>
      cases b <;> simp [renderValL] at h
  | vBool b1 =>
    cases v2 with
    | vStr s2 => cases b1 <;> simp [renderValL] at h
    | vBool b2 =>
      cases b1 <;> cases b2 <;> simp_all [renderValL]

theorem renderRestL_append_inj (d1 : ContentMap) :
    ∀ (d2 : ContentMap) (t1 t2 : List Char),
      dictKeys d1 = dictKeys d2 →
      renderRestL d1 ++ t1 = renderRestL d2 ++ t2 → d1 = d2 ∧ t1 = t2 := by
  induction d1 with
  | nil =>
    intro d2 t1 t2 hkeys h
    cases d2 with
    | nil => exact ⟨rfl, h⟩
    | cons e2 r2 => simp [dictKeys] at hkeys
  | cons e1 r1 ih =>
    intro d2 t1 t2 hkeys h
    cases d2 with
    | nil => simp [dictKeys] at hkeys
    | cons e2 r2 =>
      obtain ⟨k1, v1⟩ := e1
      obtain ⟨k2, v2⟩ := e2
      simp only [dictKeys, List.map_cons, List.cons.injEq] at hkeys
      obtain ⟨hk, hkeys'⟩ := hkeys
      subst hk
      simp only [renderRestL, renderEntryL, List.cons_append,
        List.append_assoc, List.cons.injEq, true_and] at h
      have h' := List.append_cancel_left h
      simp only [List.cons_append, List.nil_append, List.cons.injEq,
        true_and] at h'
      obtain ⟨hv, hrest⟩ := renderValL_append_inj v1 v2 _ _ h'
      obtain ⟨hr, ht⟩ := ih r2 t1 t2 hkeys' hrest
      exact ⟨by rw [hv, hr], ht⟩

theorem renderEntriesL_append_inj (d1 d2 : ContentMap) (t1 t2 : List Char)
    (hkeys : dictKeys d1 = dictKeys d2)
    (h : renderEntriesL d1 ++ t1 = renderEntriesL d2 ++ t2) :
    d1 = d2 ∧ t1 = t2 := by
  cases d1 with
  | nil =>
    cases d2 with
    | nil => exact ⟨rfl, h⟩
    | cons e2 r2 => simp [dictKeys] at hkeys
  | cons e1 r1 =>
    cases d2 with
    | nil => simp [dictKeys] at hkeys
    | cons e2 r2 =>
      obtain ⟨k1, v1⟩ := e1
      obtain ⟨k2, v2⟩ := e2
      simp only [dictKeys, List.map_cons, List.cons.injEq] at hkeys
      obtain ⟨hk, hkeys'⟩ := hkeys
      subst hk
      simp only [renderEntriesL, renderEntryL, List.cons_append,
        List.append_assoc, List.cons.injEq, true_and] at h
      have h' := List.append_cancel_left h
      simp only [List.cons_append, List.nil_append, List.cons.injEq,
        true_and] at h'
      obtain ⟨hv, hrest⟩ := renderValL_append_inj v1 v2 _ _ h'
      obtain ⟨hr, ht⟩ := renderRestL_append_inj r1 r2 t1 t2 hkeys' hrest
      exact ⟨by rw [hv, hr], ht⟩

/-- `json.dumps` is injective on content maps with the same key
sequence: two maps with equal keys and equal serializations are
equal. -/
theorem jsonDumps_inj_same_keys (d1 d2 : ContentMap)
    (hkeys : dictKeys d1 = dictKeys d2)
    (h : jsonDumps d1 = jsonDumps d2) : d1 = d2 := by
  have hl : '{' :: (renderEntriesL d1 ++ ['}']) =
      '{' :: (renderEntriesL d2 ++ ['}']) := congrArg String.data h
  simp only [List.cons.injEq, true_and] at hl
  exact (renderEntriesL_append_inj d1 d2 ['}'] ['}'] hkeys hl).1

end JsonInjective

section DecodeInversion

theorem checkDataSeq_ok_inv (P : Protocol) (content : List Val)
    (h : checkDataSeq P content = .ok ()) :
    ∃ t sch, content.get? 1 = some (.vStr t) ∧ protoLookup P t = some sch ∧
      content.length = sch.length := by
  unfold checkDataSeq at h
  cases h1 : content.get? 1 with
  | none =>
    simp only [h1] at h
    exact absurd h (by simp)
  | some tipo =>
    cases tipo with
    | vBool b =>
      simp only [h1] at h
      exact absurd h (by simp)
    | vStr t =>
      simp only [h1] at h
      cases h2 : protoLookup P t with
      | none =>
        simp only [h2] at h
        exact absurd h (by simp)
      | some sch =>
        simp only [h2] at h
        by_cases h3 : content.length = sch.length
        · exact ⟨t, sch, rfl, h2, h3⟩
        · rw [if_neg h3] at h; simp at h

theorem dictify_ok_inv (P : Protocol) (data : List Val) (dic : ContentMap)
    (h : dictify P data = .ok dic) :
    ∃ d1 sch2, data.get? 1 = some d1 ∧
      protoLookup P (pyStr d1) = some sch2 ∧
      sch2.length ≤ data.length ∧
      dic = List.zipWith (fun e v => (e.1, v)) sch2 data := by
  unfold dictify at h
  cases h1 : data.get? 1 with
  | none =>
    simp only [h1] at h
    exact absurd h (by simp)
  | some d1 =>
    simp only [h1] at h
    cases h2 : protoLookup P (pyStr d1) with
    | none =>
      simp only [h2] at h
      exact absurd h (by simp)
    | some sch2 =>
      simp only [h2] at h
      by_cases h3 : sch2.length ≤ data.length
      · rw [if_pos h3] at h
        simp only [Except.ok.injEq] at h
        exact ⟨d1, sch2, rfl, h2, h3, h.symm⟩
      · rw [if_neg h3] at h; simp at h

theorem decodePreStr_ok_inv (P : Protocol) (s : String) (dic : ContentMap)
    (h : decodePreStr P s = .ok dic) :
    checkDataSeq P ((splitSemi s).map Val.vStr) = .ok () ∧
    dictify P ((splitSemi s).map coerceToken) = .ok dic := by
  unfold decodePreStr at h
  cases hc : checkDataSeq P ((splitSemi s).map Val.vStr) with
  | error e =>
    simp only [hc] at h
    exact absurd h (by simp)
  | ok u =>
    cases u
    simp only [hc] at h
    exact ⟨rfl, h⟩

theorem decodeStr_ok_inv (P : Protocol) (key : Option String)
    (hash : String → String → String) (s : String) (dic : ContentMap)
    (h : decodeStr P key hash s = .ok dic) :
    ∃ dic0, decodePreStr P s = .ok dic0 ∧
      finishDecode key hash dic0 = .ok dic := by
  unfold decodeStr at h
  cases hp : decodePreStr P s with
  | error e =>
    simp only [hp] at h
    exact absurd h (by simp)
  | ok dic0 =>
    simp only [hp] at h
    exact ⟨dic0, rfl, h⟩

theorem finishDecode_none_inv (hash : String → String → String)
    (dic0 dic : ContentMap) (h : finishDecode none hash dic0 = .ok dic) :
    dic = dic0 ∧ ∃ tv, dictLookup dic0 "type" = some tv := by
  unfold finishDecode at h
  cases ht : dictLookup dic0 "type" with
  | none =>
    simp only [ht] at h
    exact absurd h (by simp)
  | some tv =>
    simp only [ht, Except.ok.injEq] at h
    exact ⟨h.symm, tv, rfl⟩

theorem dictKeys_zipWith_subset (sch : ContentMap) :
    ∀ (data : List Val) (k : String),
      k ∈ dictKeys (List.zipWith (fun e v => (e.1, v)) sch data) →
      k ∈ dictKeys sch := by
  induction sch with
  | nil => intro data k h; simp [dictKeys] at h
  | cons e r ih =>
    intro data k h
    cases data with
    | nil => simp [dictKeys] at h
    | cons v vs =>
      simp only [List.zipWith_cons_cons, dictKeys, List.map_cons,
        List.mem_cons] at h ⊢
      rcases h with h | h
      · exact Or.inl h
      · exact Or.inr (ih vs k h)

theorem dictValues_zipWith_of_length (sch : ContentMap) :
    ∀ data : List Val, sch.length = data.length →
      dictValues (List.zipWith (fun e v => (e.1, v)) sch data) = data := by
  induction sch with
  | nil =>
    intro data h
    cases data with
    | nil => rfl
    | cons v vs => simp at h
  | cons e r ih =>
    intro data h
    cases data with
    | nil => simp at h
    | cons v vs =>
      simp only [List.zipWith_cons_cons, dictValues, List.map_cons,
        List.cons.injEq, true_and]
      exact ih vs (by simpa using h)

end DecodeInversion

section SplitJoin

theorem splitCh_no_sep (sep : Char) (xs : List Char) (h : sep ∉ xs) :
    splitCh sep xs = [xs] := by
  induction xs with
  | nil => rfl
  | cons c cs ih =>
    simp only [List.mem_cons] at h
    push_neg at h
    have hc : ¬ (c = sep) := fun hh => h.1 hh.symm
    conv_lhs => rw [splitCh]
    rw [if_neg hc, ih h.2]

theorem splitCh_append_sep (sep : Char) (xs r : List Char) (h : sep ∉ xs) :
    splitCh sep (xs ++ sep :: r) = xs :: splitCh sep r := by
  induction xs with
  | nil =>
    show splitCh sep (sep :: r) = [] :: splitCh sep r
    conv_lhs => rw [splitCh]
    rw [if_pos rfl]
  | cons c cs ih =>
    simp only [List.mem_cons] at h
    push_neg at h
    have hc : ¬ (c = sep) := fun hh => h.1 hh.symm
    show splitCh sep (c :: (cs ++ sep :: r)) = (c :: cs) :: splitCh sep r
    conv_lhs => rw [splitCh]
    rw [if_neg hc, ih h.2]

theorem splitCh_joinCh (sep : Char) (xss : List (List Char)) (hne : xss ≠ [])
    (hfree : ∀ xs ∈ xss, sep ∉ xs) :
    splitCh sep (joinCh sep xss) = xss := by
  induction xss with
  | nil => exact absurd rfl hne
  | cons xs rest ih =>
    cases rest with
    | nil =>
      show splitCh sep (joinCh sep [xs]) = [xs]
      rw [show joinCh sep [xs] = xs from rfl]
      exact splitCh_no_sep sep xs (hfree xs (by simp))
    | cons ys yss =>
      show splitCh sep (xs ++ sep :: joinCh sep (ys :: yss)) = xs :: (ys :: yss)
      rw [splitCh_append_sep sep xs _ (hfree xs (by simp))]
      rw [ih (by simp) (fun zs hzs => hfree zs (List.mem_cons_of_mem xs hzs))]

theorem splitCh_sep_free (sep : Char) (l : List Char) :
    ∀ xs ∈ splitCh sep l, sep ∉ xs := by
  induction l with
  | nil =>
    intro xs hxs
    simp only [splitCh, List.mem_singleton] at hxs
    subst hxs
    simp
  | cons c cs ih =>
    intro xs hxs
    by_cases hc : c = sep
    · rw [show splitCh sep (c :: cs) = [] :: splitCh sep cs from by
        conv_lhs => rw [splitCh]
        rw [if_pos hc]] at hxs
      rcases List.mem_cons.mp hxs with h | h
      · subst h; simp
      · exact ih xs h
    · have hstep : splitCh sep (c :: cs) =
          match splitCh sep cs with
          | [] => [[c]]
          | t :: ts => (c :: t) :: ts := by
        conv_lhs => rw [splitCh]
        rw [if_neg hc]
      rw [hstep] at hxs
      cases hsp : splitCh sep cs with
      | nil =>
        rw [hsp] at hxs
        simp only [List.mem_singleton] at hxs
        subst hxs
        intro hmem
        rcases List.mem_cons.mp hmem with h' | h'
        · exact hc h'.symm
        · simp at h'
      | cons t ts =>
        rw [hsp] at hxs
        rcases List.mem_cons.mp hxs with h | h
        · subst h
          intro hmem
          rcases List.mem_cons.mp hmem with h' | h'
          · exact hc h'.symm
          · exact ih t (by rw [hsp]; exact List.mem_cons_self t ts) h'
        · exact ih xs (by rw [hsp]; exact List.mem_cons_of_mem t h)

theorem splitSemi_joinSemi (ts : List String) (hne : ts ≠ [])
    (hfree : ∀ t ∈ ts, ';' ∉ t.data) :
    splitSemi (joinSemi ts) = ts := by
  unfold splitSemi joinSemi
  rw [show (String.mk (joinCh ';' (ts.map String.data))).data =
    joinCh ';' (ts.map String.data) from rfl]
  rw [splitCh_joinCh ';' (ts.map String.data)
    (by simpa using hne)
    (by
      intro xs hxs
      obtain ⟨t, ht, hteq⟩ := List.mem_map.mp hxs
      rw [← hteq]
      exact hfree t ht)]
  rw [List.map_map]
  calc ts.map (String.mk ∘ String.data) = ts.map id :=
        List.map_congr_left (fun t _ => rfl)
    _ = ts := List.map_id ts

theorem splitSemi_token_sep_free (s : String) (t : String)
    (ht : t ∈ splitSemi s) : ';' ∉ t.data := by
  unfold splitSemi at ht
  obtain ⟨xs, hxs, hteq⟩ := List.mem_map.mp ht
  rw [← hteq]
  exact splitCh_sep_free ';' s.data xs hxs

theorem pyStr_coerce_sep_free (tok : String) (h : ';' ∉ tok.data) :
    ';' ∉ (pyStr (coerceToken tok)).data := by
  unfold coerceToken
  by_cases h1 : pyLower tok = "true"
  · rw [if_pos h1]; decide
  · rw [if_neg h1]
    by_cases h2 : pyLower tok = "false"
    · rw [if_pos h2]; decide
    · rw [if_neg h2]; exact h

/-- Re-coercing the wire rendering of a coerced token gives the same
value: `str(True)` is `True`, whose lower-casing coerces back to the
boolean, and an uncoerced token renders as itself. -/
theorem coerce_pyStr_coerce (tok : String) :
    coerceToken (pyStr (coerceToken tok)) = coerceToken tok := by
  by_cases h1 : pyLower tok = "true"
  · have hct : coerceToken tok = .vBool true := by
      unfold coerceToken; rw [if_pos h1]
    rw [hct]; decide
  · by_cases h2 : pyLower tok = "false"
    · have hct : coerceToken tok = .vBool false := by
        unfold coerceToken; rw [if_neg h1, if_pos h2]
      rw [hct]; decide
    · have hct : coerceToken tok = .vStr tok := by
        unfold coerceToken; rw [if_neg h1, if_neg h2]
      rw [hct]
      show coerceToken tok = .vStr tok
      exact hct

end SplitJoin

section DecodeIntro

theorem checkDataSeq_ok_intro (P : Protocol) (content : List Val)
    (t : String) (sch : Schema)
    (h1 : content.get? 1 = some (.vStr t)) (h2 : protoLookup P t = some sch)
    (h3 : content.length = sch.length) : checkDataSeq P content = .ok () := by
  unfold checkDataSeq
  simp only [h1, h2]
  rw [if_pos h3]

theorem dictify_ok_intro (P : Protocol) (data : List Val) (d1 : Val)
    (sch : Schema)
    (h1 : data.get? 1 = some d1) (h2 : protoLookup P (pyStr d1) = some sch)
    (h3 : sch.length ≤ data.length) :
    dictify P data = .ok (List.zipWith (fun e v => (e.1, v)) sch data) := by
  unfold dictify
  simp only [h1, h2]
  rw [if_pos h3]

theorem finishDecode_none_intro (hash : String → String → String)
    (dic : ContentMap) (tv : Val) (htv : dictLookup dic "type" = some tv) :
    finishDecode none hash dic = .ok dic := by
  unfold finishDecode
  simp only [htv]

theorem decodeStr_ok_intro (P : Protocol) (key : Option String)
    (hash : String → String → String) (s : String) (dic out : ContentMap)
    (hchk : checkDataSeq P ((splitSemi s).map Val.vStr) = .ok ())
    (hdict : dictify P ((splitSemi s).map coerceToken) = .ok dic)
    (hfin : finishDecode key hash dic = .ok out) :
    decodeStr P key hash s = .ok out := by
  unfold decodeStr decodePreStr
  simp only [hchk, hdict, hfin]

end DecodeIntro

/-- C2 amended: without a signing key, decoding a valid wire record,
encoding the result, and decoding again reproduces the same content
map, provided the record's type token is not itself a boolean literal
(which coercion would remap). -/
theorem c2_roundtrip_no_key (P : Protocol) (hash : String → String → String)
    (s : String) (dic : ContentMap) (tok1 : String)
    (h1 : (splitSemi s).get? 1 = some tok1)
    (htag : coerceToken tok1 = .vStr tok1)
    (hdec : decodeStr P none hash s = .ok dic) :
    decodeStr P none hash (encode dic) = .ok dic := by
  obtain ⟨dic0, hpre, hfin⟩ := decodeStr_ok_inv P none hash s dic hdec
  obtain ⟨hdd, tv, htv⟩ := finishDecode_none_inv hash dic0 dic hfin
  subst hdd
  obtain ⟨hchk, hdict⟩ := decodePreStr_ok_inv P s dic hpre
  obtain ⟨rt, sch0, hrt, hsch0, hlen0⟩ := checkDataSeq_ok_inv P _ hchk
  obtain ⟨d1, sch2, hd1, hsch2, hlen2, hzip⟩ := dictify_ok_inv P _ dic hdict
  have hrt1 : rt = tok1 := by
    rw [List.get?_map, h1] at hrt
    simp only [Option.map_some', Option.some.injEq, Val.vStr.injEq] at hrt
    exact hrt.symm
  rw [hrt1] at hsch0
  have hd1' : d1 = coerceToken tok1 := by
    rw [List.get?_map, h1] at hd1
    simp only [Option.map_some', Option.some.injEq] at hd1
    exact hd1.symm
  rw [hd1', htag] at hsch2
  simp only [pyStr] at hsch2
  have hscheq : sch2 = sch0 := by
    rw [hsch2] at hsch0
    exact Option.some.inj hsch0
  have hlen0' : (splitSemi s).length = sch0.length := by
    simpa using hlen0
  have hvals : dictValues dic = (splitSemi s).map coerceToken := by
    rw [hzip]
    refine dictValues_zipWith_of_length sch2 _ ?_
    rw [List.length_map, hscheq, hlen0']
  have hencode : encode dic =
      joinSemi ((splitSemi s).map (fun tok => pyStr (coerceToken tok))) := by
    unfold encode
    rw [hvals, List.map_map]
    rfl
  have hsne : splitSemi s ≠ [] := by
    intro hc
    rw [hc] at h1
    simp at h1
  have hsplit2 : splitSemi (encode dic) =
      (splitSemi s).map (fun tok => pyStr (coerceToken tok)) := by
    rw [hencode]
    refine splitSemi_joinSemi _ ?_ ?_
    · simpa using hsne
    · intro t ht
      obtain ⟨tok, htok, hteq⟩ := List.mem_map.mp ht
      rw [← hteq]
      exact pyStr_coerce_sep_free tok (splitSemi_token_sep_free s tok htok)
  have htoks2get : (splitSemi (encode dic)).get? 1 = some tok1 := by
    rw [hsplit2, List.get?_map, h1]
    simp only [Option.map_some']
    rw [htag]
    rfl
  have hlen2' : ((splitSemi (encode dic)).map Val.vStr).length = sch0.length := by
    rw [List.length_map, hsplit2, List.length_map, hlen0']
  refine decodeStr_ok_intro P none hash (encode dic) dic dic ?_ ?_
    (finishDecode_none_intro hash dic tv htv)
  · refine checkDataSeq_ok_intro P _ tok1 sch0 ?_ hsch0 hlen2'
    rw [List.get?_map, htoks2get]
    rfl
  · have hcoer2 : (splitSemi (encode dic)).map coerceToken =
        (splitSemi s).map coerceToken := by
      rw [hsplit2, List.map_map]
      exact List.map_congr_left (fun tok _ => coerce_pyStr_coerce tok)
    rw [hcoer2]
    exact hdict

theorem c2_roundtrip_no_key_witness :
    decodeStr P4c none hashId
      (encode [("dest", .vStr "7"), ("type", .vStr "0"),
        ("a", .vBool true), ("b", .vStr "42")]) =
      .ok [("dest", .vStr "7"), ("type", .vStr "0"),
        ("a", .vBool true), ("b", .vStr "42")] :=
  c2_roundtrip_no_key P4c hashId "7;0;true;42"
    [("dest", .vStr "7"), ("type", .vStr "0"),
      ("a", .vBool true), ("b", .vStr "42")]
    "0" rfl (by decide) rfl

/-- The Python condition `dic['type'] in self.protected_type`, read off
a decoded content map. -/
def typeProtected (d : ContentMap) : Bool :=
  match dictLookup d "type" with
  | some tv => isProtected tv
  | none => false

/-- C4: for a wire record of a protected type (under a registry whose
schemas have no `digest` field), decoding with a truthy signing key
succeeds and appends a trailing `digest` field computed, as the final
step, as the keyed hash of the serialized pre-digest content; the
digest separates any two such records with equal field names but
different content whenever the keyed hash is injective; and decoding
the same record with no key succeeds with no `digest` field and no
error. -/
theorem c4_digest_presence (P : Protocol) (hash : String → String → String)
    (k : String) (s sB : String) (dic dicB : ContentMap)
    (hkey : k ≠ "")
    (hinj : Function.Injective (hash k))
    (hP : ∀ tg sch, protoLookup P tg = some sch → "digest" ∉ dictKeys sch)
    (hpre : decodePreStr P s = .ok dic) (hprot : typeProtected dic = true)
    (hpreB : decodePreStr P sB = .ok dicB) (hprotB : typeProtected dicB = true)
    (hkeys : dictKeys dicB = dictKeys dic) (hne : dicB ≠ dic) :
    decodeStr P (some k) hash s =
      .ok (dic ++ [("digest", .vStr (hash k (jsonDumps dic)))]) ∧
    decodeStr P none hash s = .ok dic ∧
    dictLookup dic "digest" = none ∧
    hash k (jsonDumps dicB) ≠ hash k (jsonDumps dic) := by
  have hdigfree : ∀ (s0 : String) (d0 : ContentMap),
      decodePreStr P s0 = .ok d0 → dictLookup d0 "digest" = none := by
    intro s0 d0 h0
    obtain ⟨-, hdict⟩ := decodePreStr_ok_inv P s0 d0 h0
    obtain ⟨d1, sch2, -, hsch2, -, hzip⟩ := dictify_ok_inv P _ d0 hdict
    refine dictLookup_eq_none d0 "digest" ?_
    intro hmem
    exact hP _ sch2 hsch2
      (dictKeys_zipWith_subset sch2 _ "digest" (hzip ▸ hmem))
  obtain ⟨tv, htv, hptv⟩ : ∃ tv, dictLookup dic "type" = some tv ∧
      isProtected tv = true := by
    unfold typeProtected at hprot
    cases ht : dictLookup dic "type" with
    | none => simp [ht] at hprot
    | some tv =>
      simp only [ht] at hprot
      exact ⟨tv, rfl, hprot⟩
  have hfree := hdigfree s dic hpre
  have hhas : dictHasKey dic "digest" = false := by
    cases hdh : dictHasKey dic "digest" with
    | false => rfl
    | true =>
      have hmem := (dictHasKey_iff_mem dic "digest").mp hdh
      obtain ⟨v, hv⟩ := dictLookup_isSome_of_mem dic "digest" hmem
      rw [hv] at hfree
      exact absurd hfree (by simp)
  refine ⟨?_, ?_, hfree, ?_⟩
  · simp only [decodeStr, hpre, finishDecode, htv]
    rw [if_pos ⟨hptv, by simp [hkey]⟩]
    simp only [addDigest, dictSet, hhas]
    simp
  · simp only [decodeStr, hpre, finishDecode, htv]
  · intro hcon
    have hj := hinj hcon
    exact hne (jsonDumps_inj_same_keys dicB dic hkeys hj)

/-- A second protected record differing from `d3pre` in the payload. -/
def d3preB : ContentMap := [("dest", .vStr "7"), ("type", .vStr "3"), ("a", .vStr "y")]

theorem c4_digest_presence_witness :
    decodeStr P3c (some "k") hashId "7;3;x" =
      .ok (d3pre ++ [("digest", .vStr (hashId "k" (jsonDumps d3pre)))]) ∧
    decodeStr P3c none hashId "7;3;x" = .ok d3pre ∧
    dictLookup d3pre "digest" = none ∧
    hashId "k" (jsonDumps d3preB) ≠ hashId "k" (jsonDumps d3pre) := by
  have hP3 : ∀ tg sch, protoLookup P3c tg = some sch →
      "digest" ∉ dictKeys sch := by
    intro tg sch h
    by_cases htg : "3" = tg
    · simp only [P3c, protoLookup, if_pos htg, Option.some.injEq] at h
      subst h
      decide
    · simp only [P3c, protoLookup, if_neg htg] at h
      exact absurd h (by simp)
  exact c4_digest_presence P3c hashId "k" "7;3;x" "7;3;y" d3pre d3preB
    (by decide) (fun a b hab => hab) hP3 rfl rfl rfl rfl rfl (by decide)

/-- C5 amended: a map-form input whose supplied entries number exactly
the schema's field count (the arity `_check_data` enforces) and whose
keys are schema keys decodes successfully: every field defaults to the
schema's zero-value and is then overlaid with the supplied value, and
the result is in schema field order. -/
theorem c5_exact_arity_overlay (P : Protocol)
    (hash : String → String → String) (data sch : ContentMap) (t : String)
    (ht : dictLookup data "type" = some (.vStr t))
    (hsch : protoLookup P t = some sch)
    (hlen : data.length = sch.length)
    (hsub : ∀ k0 ∈ dictKeys data, k0 ∈ dictKeys sch)
    (hnd : (dictKeys data).Nodup) :
    decodeDict P none hash data =
      .ok (sch.map (fun e => (e.1, (dictLookup data e.1).getD e.2))) := by
  have hchk : checkDataDict P data = .ok () := by
    simp [checkDataDict, ht, hsch, hlen]
  have hpre : decodePreDict P data = .ok (dictUpdate sch data) := by
    simp [decodePreDict, hchk, ht, pyStr, hsch]
  have hupd := dictUpdate_overlay data sch hsub hnd
  have htm : "type" ∈ dictKeys data := mem_dictKeys_of_lookup data "type" _ ht
  have htm' : "type" ∈
      dictKeys (sch.map (fun e => (e.1, (dictLookup data e.1).getD e.2))) := by
    rw [dictKeys_map_fst_preserving]
    exact hsub "type" htm
  obtain ⟨tv, htv⟩ := dictLookup_isSome_of_mem _ "type" htm'
  simp [decodeDict, hpre, hupd, finishDecode, htv]

theorem c5_exact_arity_overlay_witness :
    decodeDict P4c none hashId
      [("type", .vStr "0"), ("dest", .vStr "7"), ("b", .vStr "9"), ("a", .vStr "x")] =
      .ok [("dest", .vStr "7"), ("type", .vStr "0"), ("a", .vStr "x"), ("b", .vStr "9")] :=
  c5_exact_arity_overlay P4c hashId
    [("type", .vStr "0"), ("dest", .vStr "7"), ("b", .vStr "9"), ("a", .vStr "x")]
    [("dest", .vStr ""), ("type", .vStr "0"), ("a", .vStr ""), ("b", .vStr "")]
    "0" rfl rfl rfl (by decide) (by decide)

/-- C9: constructing a `Packet` from a content map without the `type`
key — in particular `Packet()`, which decodes an empty dict — fails
with the raw `KeyError` of `data['type']` in `_check_data`, not with
`InvalidTypeException` (or any other protocol exception). -/
theorem c9_missing_type_is_raw_keyerror (P : Protocol) (key : Option String)
    (hash : String → String → String) (data : ContentMap)
    (h : dictLookup data "type" = none) :
    decodeDict P key hash data = .error .keyError ∧
    DecodeErr.keyError ≠ DecodeErr.invalidType := by
  refine ⟨?_, by decide⟩
  simp [decodeDict, decodePreDict, checkDataDict, h]

theorem c9_missing_type_is_raw_keyerror_witness :
    decodeDict P4c none hashId [] = .error .keyError ∧
    DecodeErr.keyError ≠ DecodeErr.invalidType :=
  c9_missing_type_is_raw_keyerror P4c none hashId [] (by decide)

/-- C6: after a successful registration of a device actor under `code`,
registering a second actor under the same code fails with
`InvalidCodeException` (the spec's DuplicateCode), and the routing
table still maps `code` to the first actor. -/
theorem c6_duplicate_code_rejected (ls ls' : List (String × TaurusSt))
    (code : String) (t1 t2 : TaurusSt)
    (h1 : listenerSet ls code t1 = .ok ls') :
    listenerSet ls' code t2 = .error .invalidCode ∧
    assocGet ls' code = some t1 := by
  unfold listenerSet at h1
  by_cases ha : ls.any (·.1 = code)
  · simp [ha] at h1
  · simp [ha] at h1
    subst h1
    constructor
    · unfold listenerSet
      have : (ls ++ [(code, t1)]).any (·.1 = code) = true := by
        simp [List.any_append]
      simp [this]
    · exact assocGet_append_single_self ls code t1 (Bool.eq_false_iff.mpr ha)

/-- C7: sequence-form decode coerces the case-insensitive literals
`true`/`false` to native booleans and forwards every other token
unchanged; decoding `"7;0;true;42"` against the schema
`[dest, type, a, b]` yields exactly
`{dest: "7", type: "0", a: true, b: "42"}`. -/
theorem c7_wire_boolean_coercion :
    decodeStr P4c none hashId "7;0;true;42" =
      .ok [("dest", .vStr "7"), ("type", .vStr "0"),
        ("a", .vBool true), ("b", .vStr "42")] ∧
    (∀ tok : String, pyLower tok = "true" → coerceToken tok = .vBool true) ∧
    (∀ tok : String, pyLower tok = "false" → coerceToken tok = .vBool false) ∧
    (∀ tok : String, pyLower tok ≠ "true" → pyLower tok ≠ "false" →
      coerceToken tok = .vStr tok) := by
  refine ⟨rfl, ?_, ?_, ?_⟩
  · intro tok h
    simp [coerceToken, h]
  · intro tok h
    have h' : pyLower tok ≠ "true" := by simp [h]
    simp [coerceToken, h, h']
  · intro tok h1 h2
    simp [coerceToken, h1, h2]

theorem c7_wire_boolean_coercion_witness :
    coerceToken "TRUE" = .vBool true ∧ coerceToken "False" = .vBool false ∧
    coerceToken "42" = .vStr "42" :=
  ⟨c7_wire_boolean_coercion.2.1 "TRUE" (by decide),
   c7_wire_boolean_coercion.2.2.1 "False" (by decide),
   c7_wire_boolean_coercion.2.2.2 "42" (by decide) (by decide)⟩

/-- The content shared by the two distinct packet objects of the C8
counterexample. -/
def dupContent : ContentMap := [("dest", .vStr "7"), ("type", .vStr "0")]

/-- C8 counterexample: `Packet` defines no value equality, so the
`OrderedSet` log compares by object identity — two distinct packet
objects with identical content are both kept, and the log has length 2,
not 1 as the claim requires. -/
theorem c8_counterexample :
    bikeReceive (bikeReceive [] ⟨0, dupContent⟩) ⟨1, dupContent⟩ =
      [⟨0, dupContent⟩, ⟨1, dupContent⟩] ∧
    (bikeReceive (bikeReceive [] ⟨0, dupContent⟩) ⟨1, dupContent⟩).length ≠ 1 :=
  ⟨rfl, by decide⟩

/-- C8 amended: the Leaf-side log is ordered and duplicate-suppressing
by object identity — re-receiving the same packet object is a no-op,
while two distinct objects are both appended in arrival order even when
their content is identical. -/
theorem c8_identity_dedup_log (log : List PacketObj) (p q : PacketObj) :
    (log.any (fun r => r.oid = p.oid) = true → bikeReceive log p = log) ∧
    (log.any (fun r => r.oid = p.oid) = false → bikeReceive log p = log ++ [p]) ∧
    bikeReceive (bikeReceive [] p) p = [p] ∧
    (p.oid ≠ q.oid → bikeReceive (bikeReceive [] p) q = [p, q]) := by
  refine ⟨?_, ?_, ?_, ?_⟩
  · intro h
    simp [bikeReceive, h]
  · intro h
    simp [bikeReceive, h]
  · simp [bikeReceive]
  · intro h
    simp [bikeReceive, h]

theorem c8_identity_dedup_log_witness :
    bikeReceive (bikeReceive [] ⟨5, []⟩) ⟨6, []⟩ = [⟨5, []⟩, ⟨6, []⟩] :=
  (c8_identity_dedup_log [] ⟨5, []⟩ ⟨6, []⟩).2.2.2 (by decide)

/-- C1: inbound Hub dispatch of a decoded packet.  When the destination
code is missing from the routing table the dispatch fails (the `None`
returned by `listener.get` has no `receive`) and no registered actor's
state is produced or changed; when the destination is registered, only
that actor receives the packet and every other routing-table entry is
carried over unchanged. -/
theorem c1_hub_dispatch (ls : List (String × TaurusSt)) (web : Bool)
    (p : ContentMap) :
    (findListener ls (pktDest p) = none →
      managePacket ls web p = .error .attributeError) ∧
    (∀ c : String, pktDest p = some (.vStr c) → ls.any (·.1 = c) = true →
      managePacket ls web p =
        .ok (ls.map (fun e => if e.1 = c then (e.1, taurusReceive e.2 p) else e),
          if web ∧ pktTipo p = some (.vStr "0") then [encode p] else []) ∧
      (∀ e ∈ ls, e.1 ≠ c →
        e ∈ ls.map (fun e' => if e'.1 = c then (e'.1, taurusReceive e'.2 p) else e'))) := by
  constructor
  · intro h
    simp [managePacket, h]
  · intro c hdest hany
    have hf : findListener ls (pktDest p) = some c := by
      simp [findListener, hdest, hany]
    constructor
    · simp [managePacket, hf]
    · intro e he hne
      exact List.mem_map.mpr ⟨e, he, by simp [hne]⟩

/-- A fresh device actor for the dispatch witness. -/
def tFresh : TaurusSt := ⟨[], []⟩

/-- A DATA packet addressed to the registered code `1`. -/
def pTo1 : ContentMap := [("dest", .vStr "1"), ("type", .vStr "0"), ("a", .vStr "x")]

/-- A DATA packet addressed to the unregistered code `9`. -/
def pTo9 : ContentMap := [("dest", .vStr "9"), ("type", .vStr "0"), ("a", .vStr "x")]

/-- A routing table with the two registered codes `1` and `2`. -/
def ls2 : List (String × TaurusSt) := [("1", tFresh), ("2", tFresh)]

theorem c1_hub_dispatch_witness :
    managePacket ls2 false pTo9 = .error .attributeError ∧
    managePacket ls2 false pTo1 =
      .ok ([("1", taurusReceive tFresh pTo1), ("2", tFresh)], []) :=
  ⟨(c1_hub_dispatch ls2 false pTo9).1 rfl,
   ((c1_hub_dispatch ls2 false pTo1).2 "1" rfl rfl).1⟩

/-- C10: the `secret_key` setter writes an instance attribute that
shadows the class-level `_SECRET_KEY` on that instance only: the class
key is unchanged, every other instance still reads the class key, and
packet construction (whose digest step runs before any instance
attribute can exist) is decided solely by the class-level key. -/
theorem c10_instance_key_shadows_class (w : KeyWorld) (oid : Nat) (k : String) :
    (setSecretKey w oid k).classKey = w.classKey ∧
    lookupSecretKey (setSecretKey w oid k) oid = some k ∧
    (∀ oid' : Nat, oid' ≠ oid →
      lookupSecretKey (setSecretKey w oid k) oid' = lookupSecretKey w oid') ∧
    (∀ (P : Protocol) (hash : String → String → String) (data : ContentMap),
      mkPacketDict (setSecretKey w oid k) P hash data = mkPacketDict w P hash data) ∧
    (∀ w' : KeyWorld, w'.classKey = w.classKey →
      ∀ (P : Protocol) (hash : String → String → String) (data : ContentMap),
        mkPacketDict w' P hash data = mkPacketDict w P hash data) := by
  refine ⟨rfl, ?_, ?_, fun P hash data => rfl, ?_⟩
  · unfold lookupSecretKey setSecretKey
    rw [assocGet_set_self]
  · intro oid' hne
    unfold lookupSecretKey setSecretKey
    rw [assocGet_set_ne _ _ _ _ hne]
  · intro w' hck P hash data
    unfold mkPacketDict
    rw [hck]

theorem c10_instance_key_shadows_class_witness :
    lookupSecretKey (setSecretKey ⟨some "c", []⟩ 7 "i") 7 = some "i" ∧
    lookupSecretKey (setSecretKey ⟨some "c", []⟩ 7 "i") 8 = some "c" ∧
    (setSecretKey ⟨some "c", []⟩ 7 "i").classKey = some "c" :=
  ⟨(c10_instance_key_shadows_class ⟨some "c", []⟩ 7 "i").2.1,
   ((c10_instance_key_shadows_class ⟨some "c", []⟩ 7 "i").2.2.1 8 (by decide)).trans rfl,
   (c10_instance_key_shadows_class ⟨some "c", []⟩ 7 "i").1⟩

/-- Two DATA packet contents that differ in the payload field. -/
def pD1 : ContentMap := [("dest", .vStr "7"), ("type", .vStr "0"), ("a", .vStr "1")]

/-- A second distinct DATA packet content. -/
def pD2 : ContentMap := [("dest", .vStr "7"), ("type", .vStr "0"), ("a", .vStr "2")]

/-- C3 counterexample: `Taurus.receive` alone never touches the
history — after receiving three DATA packets (two identical) without a
`data` read, the history is empty, not of length 2. -/
theorem c3_counterexample :
    (taurusReceive (taurusReceive (taurusReceive ⟨[], []⟩ pD1) pD1) pD2).history = [] ∧
    (taurusReceive (taurusReceive (taurusReceive ⟨[], []⟩ pD1) pD1) pD2).history.length ≠ 2 :=
  ⟨rfl, by decide⟩

/-- C3 amended: `receive` overwrites the memoized entry for the
packet's type tag and leaves the history alone; the DATA rendering is
appended to the history (idempotently) by the `data` accessor, so three
receive-then-read cycles on DATA packets with two identical contents
leave a history of length 2 in arrival order of the distinct values. -/
theorem c3_memoize_overwrite_history_on_read :
    (∀ (t : TaurusSt) (p : ContentMap),
      assocGet (taurusReceive t p).memoize (pktTipo p) = some p ∧
      (taurusReceive t p).history = t.history) ∧
    (∀ p1 p2 p3 : ContentMap,
      pktTipo p1 = some (.vStr "0") → pktTipo p3 = some (.vStr "0") →
      p2 = p1 → jsonDumps p3 ≠ jsonDumps p1 →
      ((taurusData (taurusReceive (taurusData (taurusReceive (taurusData
        (taurusReceive ⟨[], []⟩ p1)).1 p2)).1 p3)).1).history =
        [jsonDumps p1, jsonDumps p3]) := by
  constructor
  · intro t p
    exact ⟨assocGet_set_self _ _ _, rfl⟩
  · intro p1 p2 p3 h1 h3 h21 hne
    subst h21
    simp [taurusReceive, taurusData, assocSet, assocGet, osAppend, h1, h3, hne]

theorem c3_memoize_overwrite_history_on_read_witness :
    ((taurusData (taurusReceive (taurusData (taurusReceive (taurusData
      (taurusReceive ⟨[], []⟩ pD1)).1 pD1)).1 pD2)).1).history =
      [jsonDumps pD1, jsonDumps pD2] :=
  c3_memoize_overwrite_history_on_read.2 pD1 pD1 pD2 rfl rfl rfl (by decide)

/-- C5 counterexample: a genuinely partial content map (2 keys against
a 4-field schema) does not decode — `_check_data` compares the number
of supplied values with the schema arity and raises
`InvalidFieldsException`. -/
theorem c5_counterexample :
    decodeDict P4c none hashId [("type", .vStr "0"), ("dest", .vStr "7")] =
      .error .invalidFields := rfl

/-- C2 counterexample: with a signing key configured, a protected-type
record decodes to a content map with a trailing digest field; encoding
appends that digest as an extra wire token, so re-decoding the encoded
string fails the arity check with `InvalidFieldsException` instead of
reproducing the first content map. -/
theorem c2_counterexample :
    decodeStr P3c (some "k") hashId "7;3;x" =
      .ok (d3pre ++ [("digest", .vStr (hashId "k" (jsonDumps d3pre)))]) ∧
    decodeStr P3c (some "k") hashId
      (encode (d3pre ++ [("digest", .vStr (hashId "k" (jsonDumps d3pre)))])) =
      .error .invalidFields :=
  ⟨rfl, rfl⟩

theorem c6_duplicate_code_rejected_witness :
    listenerSet [("1", TaurusSt.mk [] [])] "1" (TaurusSt.mk [] ["h"]) =
      .error .invalidCode ∧
    assocGet [("1", TaurusSt.mk [] [])] "1" = some (TaurusSt.mk [] []) :=
  c6_duplicate_code_rejected [] [("1", TaurusSt.mk [] [])] "1"
    (TaurusSt.mk [] []) (TaurusSt.mk [] ["h"]) rfl

end Pyxbee
